import Mathlib

/-!
Verification of `s3cli.py`, a single-file S3 command-line client.

The development shallowly embeds the pure computational content of the
source: the AWS Signature Version 4 pipeline (`sign_request_v4`), the
chunk-range arithmetic of the chunked/parallel transfer functions, the
transfer-mode decision of `upload_file` / `download_file`, and the
multipart-upload orchestration (`upload_file_multipart`,
`upload_file_parallel`) together with the chunked/parallel download error
handling.  Library primitives (SHA-256 and HMAC-SHA256, from Python's
`hashlib` / `hmac`) are taken as abstract function parameters; everything
else is translated directly from the source.  I/O is modelled by explicit
traces of the S3 requests the orchestrators issue and by the byte
contents written to the destination file.
-/

namespace S3Cli

/-! ### Byte-level helpers

Python strings are hashed after `.encode('utf-8')`; we model byte strings
as `List Nat` and UTF-8 encoding via Lean's `String.toUTF8`. -/

/-- UTF-8 encoding of one character, as byte values (standard UTF-8:
1 to 4 bytes depending on the code point). -/
def utf8Char (c : Char) : List Nat :=
  let n := c.toNat
  if n < 128 then [n]
  else if n < 2048 then [192 + n / 64, 128 + n % 64]
  else if n < 65536 then [224 + n / 4096, 128 + (n / 64) % 64, 128 + n % 64]
  else [240 + n / 262144, 128 + (n / 4096) % 64, 128 + (n / 64) % 64, 128 + n % 64]

/-- UTF-8 encoding of a string, as a list of byte values
(models Python's `s.encode('utf-8')`). -/
def utf8 (s : String) : List Nat :=
  (s.toList.map utf8Char).flatten

/-- Lower-case hexadecimal digit for `n < 16`. -/
def hexDigitLower (n : Nat) : Char :=
  if n < 10 then Char.ofNat (48 + n) else Char.ofNat (87 + n)

/-- Upper-case hexadecimal digit for `n < 16`. -/
def hexDigitUpper (n : Nat) : Char :=
  if n < 10 then Char.ofNat (48 + n) else Char.ofNat (55 + n)

/-- Two lower-case hex digits of a byte (models Python's `hexdigest`
rendering of a single digest byte). -/
def byteHexLower (b : Nat) : String :=
  String.mk [hexDigitLower (b / 16), hexDigitLower (b % 16)]

/-- Two upper-case hex digits of a byte (as produced by
`urllib.parse.quote` for percent-escapes). -/
def byteHexUpper (b : Nat) : String :=
  String.mk [hexDigitUpper (b / 16), hexDigitUpper (b % 16)]

/-- Lower-case hex string of a byte sequence: models `.hexdigest()`
applied to a digest whose raw bytes are `bs`. -/
def bytesToHex (bs : List Nat) : String :=
  String.join (bs.map byteHexLower)

/-- The bytes never escaped by `urllib.parse.quote`: ASCII letters,
digits, and `_.-~`. -/
def isUnreservedByte (b : Nat) : Bool :=
  (65 ≤ b && b ≤ 90) || (97 ≤ b && b ≤ 122) || (48 ≤ b && b ≤ 57) ||
    b == 45 || b == 46 || b == 95 || b == 126

/-- Percent-encoding of a single byte as done by `urllib.parse.quote`. -/
def quoteByte (b : Nat) : String :=
  if isUnreservedByte b then String.mk [Char.ofNat b] else "%" ++ byteHexUpper b

/-- Models `urllib.parse.quote(s, safe='')`: every UTF-8 byte outside the
unreserved set is rendered as an upper-case `%XX` escape. -/
def pctQuote (s : String) : String :=
  String.join ((utf8 s).map quoteByte)

/-- ASCII lower-casing of one character; models Python's `str.lower` on
the ASCII range (the only range header names use). -/
def asciiLower (c : Char) : Char :=
  if 65 ≤ c.toNat ∧ c.toNat ≤ 90 then Char.ofNat (c.toNat + 32) else c

/-- Models `s.lower()` for ASCII strings. -/
def pyLower (s : String) : String :=
  String.mk (s.toList.map asciiLower)

/-- Lexicographic comparison of character lists by code point: the
string comparison Python's `sorted` uses. -/
def charListLe : List Char → List Char → Bool
  | [], _ => true
  | _ :: _, [] => false
  | a :: as, b :: bs =>
    if a.toNat < b.toNat then true
    else if b.toNat < a.toNat then false
    else charListLe as bs

/-- Python's `<=` on strings (code-point lexicographic). -/
def pyStrLe (a b : String) : Bool :=
  charListLe a.toList b.toList

/-- Models Python's `sorted` on strings: a comparison sort with the
code-point lexicographic order. -/
def pySorted (l : List String) : List String :=
  List.insertionSort (fun a b => pyStrLe a b = true) l

instance : IsTotal String (fun a b => pyStrLe a b = true) := by
  constructor
  intro a b
  unfold pyStrLe
  generalize a.toList = as
  generalize b.toList = bs
  induction as generalizing bs with
  | nil => left; rfl
  | cons x xs ih =>
    cases bs with
    | nil => right; rfl
    | cons y ys =>
      by_cases h1 : x.toNat < y.toNat
      · left; simp [charListLe, h1]
      · by_cases h2 : y.toNat < x.toNat
        · right; simp [charListLe, h2]
        · rcases ih ys with h | h
          · left; simp [charListLe, h1, h2, h]
          · right; simp [charListLe, h1, h2, h]

instance : IsTrans String (fun a b => pyStrLe a b = true) := by
  constructor
  intro a b c
  unfold pyStrLe
  generalize a.toList = as
  generalize b.toList = bs
  generalize c.toList = cs
  induction as generalizing bs cs with
  | nil => intro _ _; rfl
  | cons x xs ih =>
    intro h1 h2
    cases bs with
    | nil => simp [charListLe] at h1
    | cons y ys =>
      cases cs with
      | nil => simp [charListLe] at h2
      | cons z zs =>
        simp only [charListLe] at h1 h2 ⊢
        by_cases hxy : x.toNat < y.toNat <;> by_cases hyz : y.toNat < z.toNat
        · rw [if_pos (show x.toNat < z.toNat by omega)]
        · rw [if_neg hyz] at h2
          by_cases hzy : z.toNat < y.toNat
          · rw [if_pos hzy] at h2
            exact absurd h2 (by simp)
          · rw [if_pos (show x.toNat < z.toNat by omega)]
        · rw [if_neg hxy] at h1
          by_cases hyx : y.toNat < x.toNat
          · rw [if_pos hyx] at h1
            exact absurd h1 (by simp)
          · rw [if_pos (show x.toNat < z.toNat by omega)]
        · rw [if_neg hxy] at h1
          rw [if_neg hyz] at h2
          by_cases hyx : y.toNat < x.toNat
          · rw [if_pos hyx] at h1
            exact absurd h1 (by simp)
          · by_cases hzy : z.toNat < y.toNat
            · rw [if_pos hzy] at h2
              exact absurd h2 (by simp)
            · rw [if_neg hyx] at h1
              rw [if_neg hzy] at h2
              rw [if_neg (show ¬ x.toNat < z.toNat by omega),
                if_neg (show ¬ z.toNat < x.toNat by omega)]
              exact ih ys zs h1 h2

instance : IsAntisymm String (fun a b => pyStrLe a b = true) := by
  constructor
  intro a b h1 h2
  have key : ∀ as bs : List Char, charListLe as bs = true → charListLe bs as = true → as = bs := by
    intro as
    induction as with
    | nil =>
      intro bs _ h4
      cases bs with
      | nil => rfl
      | cons y ys => simp [charListLe] at h4
    | cons x xs ih =>
      intro bs h3 h4
      cases bs with
      | nil => simp [charListLe] at h3
      | cons y ys =>
        simp only [charListLe] at h3 h4
        by_cases hxy : x.toNat < y.toNat
        · rw [if_neg (show ¬ y.toNat < x.toNat by omega), if_pos hxy] at h4
          exact absurd h4 (by simp)
        · by_cases hyx : y.toNat < x.toNat
          · rw [if_neg hxy, if_pos hyx] at h3
            exact absurd h3 (by simp)
          · have heq : x.toNat = y.toNat := by omega
            have hx : x = y := by
              calc x = Char.ofNat x.toNat := (Char.ofNat_toNat x).symm
                _ = Char.ofNat y.toNat := by rw [heq]
                _ = y := Char.ofNat_toNat y
            rw [if_neg hxy, if_neg hyx] at h3
            rw [if_neg hyx, if_neg hxy] at h4
            rw [hx, ih ys h3 h4]
  have hdata := key a.toList b.toList h1 h2
  exact String.ext hdata

/-! ### Python dict model

`sign_request_v4` builds `query_params` and `normalized_headers` as
Python dicts.  A dict is modelled as an insertion-ordered association
list with unique keys: assigning `d[k] = v` overwrites the value in
place when `k` is present and appends `(k, v)` otherwise. -/

/-- Insertion-ordered association list standing for a Python dict. -/
abbrev PyDict := List (String × String)

/-- Models the Python dict assignment `d[k] = v`. -/
def dictSet (d : PyDict) (k v : String) : PyDict :=
  if d.any (fun p => p.1 == k) then
    d.map (fun p => if p.1 == k then (p.1, v) else p)
  else d ++ [(k, v)]

/-- The keys of a dict, in insertion order (models `d.keys()`). -/
def dictKeys (d : PyDict) : List String :=
  d.map Prod.fst

/-- Models the Python dict lookup `d[k]` (defaulting to `""` when the
key is absent; the source only looks up keys it has inserted). -/
def dictGet (d : PyDict) (k : String) : String :=
  (d.lookup k).getD ""

/-! ### Canonical query string (`sign_request_v4`, lines 42-55) -/

/-- Splits a list of characters at the first `'='`
(models `param.split('=', 1)` when `'='` is present). -/
def splitAtFirstEq : List Char → List Char × List Char
  | [] => ([], [])
  | c :: cs =>
    if c = '=' then ([], cs)
    else
      let p := splitAtFirstEq cs
      (c :: p.1, p.2)

/-- Parses one `&`-separated token of the query string: a token with an
`'='` splits at the first one (`param.split('=', 1)`), a token without
is a key with empty value. -/
def parseParam (param : String) : String × String :=
  if param.toList.contains '=' then
    let p := splitAtFirstEq param.toList
    (String.mk p.1, String.mk p.2)
  else (param, "")

/-- Splitting a character list on a separator character, accumulating
the current field in reverse; models Python's `str.split(sep)`, which
yields `[""]` on the empty string and keeps empty fields. -/
def splitCharsOn (sep : Char) : List Char → List Char → List String
  | [], acc => [String.mk acc.reverse]
  | c :: cs, acc =>
    if c = sep then String.mk acc.reverse :: splitCharsOn sep cs []
    else splitCharsOn sep cs (c :: acc)

/-- Models Python's `s.split(sep)` for a one-character separator. -/
def pySplit (s : String) (sep : Char) : List String :=
  splitCharsOn sep s.toList []

/-- The `query_params` dict built by the `for param in query.split('&')`
loop. -/
def buildQueryDict (tokens : List String) : PyDict :=
  tokens.foldl (fun d param => dictSet d (parseParam param).1 (parseParam param).2) []

/-- Canonical rendering of a query dict: keys sorted, key and value
percent-encoded separately, `key=value` pairs joined with `&`. -/
def canonicalOfDict (d : PyDict) : String :=
  String.intercalate "&" ((pySorted (dictKeys d)).map
    (fun k => pctQuote k ++ "=" ++ pctQuote (dictGet d k)))

/-- Canonicalization of a token list (the code after `split('&')`). -/
def canonicalFromTokens (tokens : List String) : String :=
  canonicalOfDict (buildQueryDict tokens)

/-- `canonical_query_string` of `sign_request_v4`: the empty query is
skipped by `if parsed_url.query:`, otherwise the query is split on `&`,
parsed into a dict, and rendered sorted by key. -/
def canonicalQueryString (query : String) : String :=
  if query = "" then canonicalOfDict []
  else canonicalFromTokens (pySplit query '&')

/-! ### Canonical headers and payload hash (`sign_request_v4`, lines 57-86) -/

/-- `normalized_headers = {k.lower(): v for k, v in headers.items()}`. -/
def normalizeHeaders (hs : List (String × String)) : PyDict :=
  hs.foldl (fun d p => dictSet d (pyLower p.1) p.2) []

/-- The `canonical_headers` accumulation loop:
`canonical_headers += f"{key}:{headers[key]}\n"` over the sorted keys. -/
def canonicalHeadersStr (d : PyDict) : String :=
  (pySorted (dictKeys d)).foldl (fun acc k => acc ++ (k ++ ":" ++ dictGet d k ++ "\n")) ""

/-- `signed_headers = ';'.join(sorted(headers.keys()))`. -/
def signedHeadersStr (d : PyDict) : String :=
  String.intercalate ";" (pySorted (dictKeys d))

/-- The request body as passed to `sign_request_v4`: Python `None`,
`bytes`, or `str`. -/
inductive PyBody where
  | noBody
  | bytes (bs : List Nat)
  | str (s : String)

/-- `payload_hash`: hex SHA-256 of the body bytes — of `b''` when the
body is `None`, of the raw bytes for `bytes`, of the UTF-8 encoding for
`str`.  `sha256x` is the abstract SHA-256 digest function. -/
def payloadHash (sha256x : List Nat → List Nat) : PyBody → String
  | .noBody => bytesToHex (sha256x (utf8 ""))
  | .bytes bs => bytesToHex (sha256x bs)
  | .str s => bytesToHex (sha256x (utf8 s))

/-- The canonical request of `sign_request_v4` (lines 78-86).  `path` and
`query` are the components `urlparse` extracts from the URL; the empty
path is normalized to `/`. -/
def canonicalRequest (sha256x : List Nat → List Nat)
    (method path query : String) (headers : List (String × String))
    (data : PyBody) : String :=
  let path' := if path = "" then "/" else path
  let d := normalizeHeaders headers
  method ++ "\n" ++ path' ++ "\n" ++ canonicalQueryString query ++ "\n" ++
    canonicalHeadersStr d ++ "\n" ++ signedHeadersStr d ++ "\n" ++
    payloadHash sha256x data

/-! ### String to sign and signature (`sign_request_v4`, lines 88-124) -/

/-- `credential_scope = f"{amz_date[:8]}/{region}/{service}/aws4_request"`. -/
def credentialScope (amzDate region service : String) : String :=
  amzDate.take 8 ++ "/" ++ region ++ "/" ++ service ++ "/aws4_request"

/-- The string to sign: algorithm tag, date-time, credential scope and
hex SHA-256 of the canonical request, joined by newlines. -/
def stringToSign (sha256x : List Nat → List Nat)
    (amzDate region service canonicalReq : String) : String :=
  "AWS4-HMAC-SHA256" ++ "\n" ++ amzDate ++ "\n" ++
    credentialScope amzDate region service ++ "\n" ++
    bytesToHex (sha256x (utf8 canonicalReq))

/-- The signing key: four chained HMAC-SHA256 digests, seeded with the
UTF-8 bytes of `"AWS4" + secret_key`, folding in `amz_date[:8]`, the
region, the service and `b'aws4_request'`.  `hmacx key msg` is the
abstract HMAC-SHA256 digest. -/
def signingKey (hmacx : List Nat → List Nat → List Nat)
    (secretKey amzDate region service : String) : List Nat :=
  let kDate := hmacx (utf8 ("AWS4" ++ secretKey)) (utf8 (amzDate.take 8))
  let kRegion := hmacx kDate (utf8 region)
  let kService := hmacx kRegion (utf8 service)
  hmacx kService (utf8 "aws4_request")

/-- The whole of `sign_request_v4`, producing the `Authorization` header
value.  The date-time is read back from the normalized headers
(`amz_date = headers['x-amz-date']`), exactly as in the source. -/
def signRequestV4 (hmacx : List Nat → List Nat → List Nat)
    (sha256x : List Nat → List Nat)
    (method path query : String) (headers : List (String × String))
    (data : PyBody) (region service accessKey secretKey : String) : String :=
  let d := normalizeHeaders headers
  let creq := canonicalRequest sha256x method path query headers data
  let amzDate := dictGet d "x-amz-date"
  let sts := stringToSign sha256x amzDate region service creq
  let signature := bytesToHex (hmacx (signingKey hmacx secretKey amzDate region service) (utf8 sts))
  "AWS4-HMAC-SHA256" ++ " " ++ "Credential=" ++ accessKey ++ "/" ++
    credentialScope amzDate region service ++ ", " ++
    "SignedHeaders=" ++ signedHeadersStr d ++ ", " ++
    "Signature=" ++ signature

/-! ### Chunk arithmetic (`download_file_chunked`, `upload_file_parallel`,
`download_file_parallel`) -/

/-- `chunk_count = (file_size + chunk_size - 1) // chunk_size`
(lines 900 and 995). -/
def chunkCount (fileSize chunkSize : Nat) : Nat :=
  (fileSize + chunkSize - 1) / chunkSize

/-- The inclusive byte range of chunk `i` in the parallel download:
`start = i * chunk_size`, `end = min(start + chunk_size - 1, file_size - 1)`
(lines 978-979). -/
def chunkRange (fileSize chunkSize i : Nat) : Nat × Nat :=
  (i * chunkSize, min (i * chunkSize + chunkSize - 1) (fileSize - 1))

/-- The list of chunk ranges the parallel download fetches:
`range(chunk_count)` mapped through `download_chunk`'s range arithmetic. -/
def parallelChunks (fileSize chunkSize : Nat) : List (Nat × Nat) :=
  (List.range (chunkCount fileSize chunkSize)).map (chunkRange fileSize chunkSize)

/-- The `Range` header values sent by the parallel download
(`f'bytes={start_byte}-{end_byte}'`, line 983). -/
def parallelRangeHeaders (fileSize chunkSize : Nat) : List String :=
  (parallelChunks fileSize chunkSize).map
    (fun p => "bytes=" ++ toString p.1 ++ "-" ++ toString p.2)

/-- The destination file as created by `f.truncate(file_size)`
(line 974): `file_size` zero bytes. -/
def truncatedFile (fileSize : Nat) : List Nat :=
  List.replicate fileSize 0

/-- The byte ranges produced by the sequential `while start_byte < file_size`
loop of `download_file_chunked` (lines 459-485), starting from
`startByte`.  The source loop does not terminate for `chunk_size = 0`;
the guard `0 < chunkSize` restricts the model to the terminating case. -/
def downloadChunkRanges (fileSize chunkSize startByte : Nat) : List (Nat × Nat) :=
  if h : startByte < fileSize ∧ 0 < chunkSize then
    let endByte := min (startByte + chunkSize - 1) (fileSize - 1)
    (startByte, endByte) :: downloadChunkRanges fileSize chunkSize (endByte + 1)
  else []
termination_by fileSize - startByte
decreasing_by
  rcases h with ⟨h1, h2⟩
  rcases Nat.min_le_left (startByte + chunkSize - 1) (fileSize - 1) with _
  omega

/-! ### Transfer-mode decision (`upload_file` lines 269-287,
`download_file` lines 416-434) -/

/-- The `use_multipart` decision of `upload_file`:
`use_multipart = file_size > chunk_size`, then `force_multipart` sets it
to `True`, then `force_single` sets it to `False`. -/
def decideUploadMultipart (fileSize chunkSize : Nat)
    (forceMultipart forceSingle : Bool) : Bool :=
  let m := decide (fileSize > chunkSize)
  let m' := if forceMultipart then true else m
  if forceSingle then false else m'

/-- The `use_chunked` decision of `download_file`: same shape, with
`force_chunked` in place of `force_multipart`. -/
def decideDownloadChunked (fileSize chunkSize : Nat)
    (forceChunked forceSingle : Bool) : Bool :=
  let m := decide (fileSize > chunkSize)
  let m' := if forceChunked then true else m
  if forceSingle then false else m'

/-! ### Multipart upload orchestration

The orchestrators are modelled as pure functions from the responses the
server would give (statuses and ETags per part, plus the order in which
parallel futures complete) to the trace of S3 requests they issue and the
reported outcome. -/

/-- One S3 request issued by a multipart orchestrator. -/
inductive S3Req where
  | initiate
  | uploadPart (partNumber size : Nat)
  | abort
  | complete (xml : String)
deriving DecidableEq

/-- Whether a request is the abort DELETE carrying `uploadId`. -/
def S3Req.isAbort : S3Req → Bool
  | .abort => true
  | _ => false

/-- Whether a request is the CompleteMultipartUpload POST. -/
def S3Req.isComplete : S3Req → Bool
  | .complete _ => true
  | _ => false

/-- The outcome the orchestrator reports. -/
inductive UploadOutcome where
  | initError
  | aborted
  | completeFailed
  | ok
deriving DecidableEq

/-- One `<Part>` element of the completion document (line 387). -/
def partElementXml (p : Nat × String) : String :=
  "<Part><PartNumber>" ++ toString p.1 ++ "</PartNumber><ETag>" ++ p.2 ++ "</ETag></Part>"

/-- The completion document: the `completion_xml` accumulation loop
(lines 385-388). -/
def completionXml (parts : List (Nat × String)) : String :=
  parts.foldl (fun acc p => acc ++ partElementXml p) "<CompleteMultipartUpload>"
    ++ "</CompleteMultipartUpload>"

/-- `part_info.sort(key=lambda x: x['PartNumber'])` (line 945). -/
def sortPartsByNumber (parts : List (Nat × String)) : List (Nat × String) :=
  List.insertionSort (fun a b => a.1 ≤ b.1) parts

instance : IsTotal (Nat × String) (fun a b => a.1 ≤ b.1) :=
  ⟨fun a b => Nat.le_total a.1 b.1⟩

instance : IsTrans (Nat × String) (fun a b => a.1 ≤ b.1) :=
  ⟨fun _ _ _ h1 h2 => Nat.le_trans h1 h2⟩

/-- Splitting the local file into `file.read(chunk_size)` pieces
(the `while True` read loop).  `read(0)` returns `b''`, so a zero chunk
size yields no parts, exactly as in the source. -/
def fileChunks (content : List Nat) (chunkSize : Nat) : List (List Nat) :=
  if h : content = [] ∨ chunkSize = 0 then []
  else content.take chunkSize :: fileChunks (content.drop chunkSize) chunkSize
termination_by content.length
decreasing_by
  rcases h' : content with _ | ⟨c, cs⟩
  · simp [h'] at h
  · simp only [List.length_drop, h', List.length_cons]
    omega

/-- The sequential part-upload loop of `upload_file_multipart`
(lines 350-382): uploads chunk after chunk with ascending part numbers,
collecting `(PartNumber, ETag)` pairs; the first part whose PUT status is
not 200 triggers the abort DELETE and stops the upload. -/
def uploadPartsLoop (pstatus : Nat → Nat) (etag : Nat → String) :
    List (List Nat) → Nat → List (Nat × String) →
    List S3Req × Option (List (Nat × String))
  | [], _, acc => ([], some acc)
  | data :: rest, pn, acc =>
    if pstatus pn = 200 then
      let r := uploadPartsLoop pstatus etag rest (pn + 1) (acc ++ [(pn, etag pn)])
      (S3Req.uploadPart pn data.length :: r.1, r.2)
    else ([S3Req.uploadPart pn data.length, S3Req.abort], none)

/-- `upload_file_multipart` (lines 324-400): initiate, sequential part
loop, then either the abort already issued by the loop or the
completion POST with the collected parts in collection order. -/
def uploadFileMultipart (initStatus : Nat) (pstatus : Nat → Nat)
    (etag : Nat → String) (completeStatus : Nat) (chunks : List (List Nat)) :
    List S3Req × UploadOutcome :=
  if initStatus ≠ 200 then ([S3Req.initiate], .initError)
  else
    match uploadPartsLoop pstatus etag chunks 1 [] with
    | (tr, none) => (S3Req.initiate :: tr, .aborted)
    | (tr, some parts) =>
      (S3Req.initiate :: tr ++ [S3Req.complete (completionXml parts)],
        if completeStatus = 200 then .ok else .completeFailed)

/-- The `as_completed` gathering loop of `upload_file_parallel`
(lines 930-942): results are consumed in the completion order `order`;
a part whose PUT returned a non-200 status yields `None`, upon which the
loop issues exactly one abort DELETE and returns. -/
def gatherParts (pstatus : Nat → Nat) (etag : Nat → String) :
    List Nat → List (Nat × String) →
    List S3Req × Option (List (Nat × String))
  | [], acc => ([], some acc)
  | p :: rest, acc =>
    if pstatus p = 200 then gatherParts pstatus etag rest (acc ++ [(p, etag p)])
    else ([S3Req.abort], none)

/-- `upload_file_parallel` (lines 878-963): initiate, gather the futures
in completion order, sort the collected parts by part number and submit
the completion document.  Only the main-thread requests (initiate, abort,
complete) appear in the trace; the part PUTs run inside the worker
threads. -/
def uploadFileParallel (initStatus : Nat) (pstatus : Nat → Nat)
    (etag : Nat → String) (completeStatus : Nat) (order : List Nat) :
    List S3Req × UploadOutcome :=
  if initStatus ≠ 200 then ([S3Req.initiate], .initError)
  else
    match gatherParts pstatus etag order [] with
    | (tr, none) => (S3Req.initiate :: tr, .aborted)
    | (tr, some collected) =>
      (S3Req.initiate :: tr ++ [S3Req.complete (completionXml (sortPartsByNumber collected))],
        if completeStatus = 200 then .ok else .completeFailed)

/-! ### Download error handling (`download_file_chunked` lines 450-487,
`download_file_parallel` lines 965-1017)

`resp` maps each requested byte range to the status and body of the
server's answer.  The destination file contents are threaded through
explicitly; neither function ever deletes the file, so a failure leaves
the partially written bytes behind. -/

/-- The sequential download loop of `download_file_chunked`: the file is
opened (created empty) before the loop; each 200/206 response is appended
to it; any other status stops the download with failure, leaving the
bytes written so far.  Returns the final file contents and whether the
download succeeded. -/
def downloadChunkedLoop (resp : Nat × Nat → Nat × List Nat)
    (fileSize chunkSize startByte : Nat) (fileBytes : List Nat) :
    List Nat × Bool :=
  if h : startByte < fileSize ∧ 0 < chunkSize then
    let endByte := min (startByte + chunkSize - 1) (fileSize - 1)
    let r := resp (startByte, endByte)
    if r.1 = 200 ∨ r.1 = 206 then
      downloadChunkedLoop resp fileSize chunkSize (endByte + 1) (fileBytes ++ r.2)
    else (fileBytes, false)
  else (fileBytes, true)
termination_by fileSize - startByte
decreasing_by
  rcases h with ⟨h1, h2⟩
  rcases Nat.min_le_left (startByte + chunkSize - 1) (fileSize - 1) with _
  omega

/-- `download_file_chunked` from the top: empty file, loop from byte 0. -/
def downloadFileChunked (resp : Nat × Nat → Nat × List Nat)
    (fileSize chunkSize : Nat) : List Nat × Bool :=
  downloadChunkedLoop resp fileSize chunkSize 0 []

/-- `f.seek(start); f.write(data)` on the truncated destination file. -/
def writeAt (file : List Nat) (pos : Nat) (data : List Nat) : List Nat :=
  file.take pos ++ data ++ file.drop (pos + data.length)

/-- The `as_completed` loop of `download_file_parallel`: chunk indices
are consumed in completion order `order`; a 200/206 response is written
at its chunk's start offset; any other status makes the whole download
return `False`, leaving the file as written so far. -/
def gatherChunks (resp : Nat × Nat → Nat × List Nat)
    (fileSize chunkSize : Nat) :
    List Nat → List Nat → List Nat × Bool
  | [], file => (file, true)
  | i :: rest, file =>
    let rng := chunkRange fileSize chunkSize i
    let r := resp rng
    if r.1 = 200 ∨ r.1 = 206 then
      gatherChunks resp fileSize chunkSize rest (writeAt file rng.1 r.2)
    else (file, false)

/-- `download_file_parallel` from the top: truncate the destination to
`file_size` bytes, then gather the chunk futures in completion order. -/
def downloadFileParallel (resp : Nat × Nat → Nat × List Nat)
    (fileSize chunkSize : Nat) (order : List Nat) : List Nat × Bool :=
  gatherChunks resp fileSize chunkSize order (truncatedFile fileSize)

/-! ### Chunk-arithmetic lemmas -/

lemma le_chunkCount_mul (S C : Nat) (hC : 0 < C) : S ≤ chunkCount S C * C := by
  have hdm := Nat.div_add_mod (S + C - 1) C
  have hmod := Nat.mod_lt (S + C - 1) hC
  unfold chunkCount
  rw [Nat.mul_comm]
  omega

lemma chunkCount_mul_lt (S C : Nat) (hC : 0 < C) : chunkCount S C * C < S + C := by
  have hdm := Nat.div_add_mod (S + C - 1) C
  have hmod := Nat.mod_lt (S + C - 1) hC
  unfold chunkCount
  rw [Nat.mul_comm]
  omega

lemma lt_chunkCount (S C i : Nat) (hC : 0 < C) (h : i * C < S) : i < chunkCount S C := by
  by_contra hle
  push_neg at hle
  have h2 : chunkCount S C * C ≤ i * C := Nat.mul_le_mul_right C hle
  have h3 := le_chunkCount_mul S C hC
  omega

lemma chunkCount_le (S C i : Nat) (hC : 0 < C) (h : S ≤ i * C) : chunkCount S C ≤ i := by
  have h2 : S + C - 1 < (i + 1) * C := by
    have hm : (i + 1) * C = i * C + C := by rw [Nat.succ_mul]
    omega
  have h3 := (Nat.div_lt_iff_lt_mul hC).mpr h2
  unfold chunkCount
  omega

lemma downloadChunkRanges_eq_aux (S C : Nat) (hC : 0 < C) :
    ∀ k i, chunkCount S C - i ≤ k →
      downloadChunkRanges S C (i * C) =
        (List.range' i (chunkCount S C - i)).map (chunkRange S C) := by
  intro k
  induction k with
  | zero =>
    intro i hk
    have hcnt : chunkCount S C ≤ i := by omega
    have hmul : chunkCount S C * C ≤ i * C := Nat.mul_le_mul_right C hcnt
    have hSle := le_chunkCount_mul S C hC
    rw [downloadChunkRanges, dif_neg (fun hc => by omega)]
    rw [Nat.sub_eq_zero_of_le hcnt]
    rfl
  | succ k ih =>
    intro i hk
    by_cases hlt : i * C < S
    · have hi : i < chunkCount S C := lt_chunkCount S C i hC hlt
      rw [downloadChunkRanges, dif_pos ⟨hlt, hC⟩]
      by_cases hmin : i * C + C - 1 ≤ S - 1
      · have hmineq : min (i * C + C - 1) (S - 1) = i * C + C - 1 :=
          Nat.min_eq_left hmin
        have hnext : i * C + C - 1 + 1 = (i + 1) * C := by
          rw [Nat.succ_mul]; omega
        have hrec := ih (i + 1) (by omega)
        have hsub : chunkCount S C - i = (chunkCount S C - (i + 1)) + 1 := by omega
        simp only [hmineq, hnext, hrec, hsub]
        simp [List.range', chunkRange, hmineq]
      · have hmineq : min (i * C + C - 1) (S - 1) = S - 1 :=
          Nat.min_eq_right (by omega)
        have hnext : S - 1 + 1 = S := by omega
        have hstop : downloadChunkRanges S C S = [] := by
          rw [downloadChunkRanges, dif_neg (fun hc => by omega)]
        have hcnt1 : chunkCount S C - i = 1 := by
          have h2 : chunkCount S C ≤ i + 1 :=
            chunkCount_le S C (i + 1) hC (by rw [Nat.succ_mul]; omega)
          omega
        simp only [hmineq, hnext, hstop, hcnt1]
        simp [List.range', chunkRange, hmineq]
    · have hcnt : chunkCount S C ≤ i := chunkCount_le S C i hC (by omega)
      rw [downloadChunkRanges, dif_neg (fun hc => by omega)]
      rw [Nat.sub_eq_zero_of_le hcnt]
      rfl

lemma downloadChunkRanges_zero_eq (S C : Nat) (hC : 0 < C) :
    downloadChunkRanges S C 0 = parallelChunks S C := by
  have h := downloadChunkRanges_eq_aux S C hC (chunkCount S C) 0 (by omega)
  simpa [parallelChunks, List.range_eq_range'] using h

/-- Claim C2: for any object size `S > 0` and chunk size `C > 0`, the
sequential while-loop of `download_file_chunked` computes exactly the
chunk list of the parallel code; the chunk count is `⌈S/C⌉` (the least
`n` with `S ≤ n * C`); every byte `b` lies in some chunk's inclusive
range iff `b < S`; and two chunks containing the same byte are the same
chunk — so the ranges are pairwise disjoint, leave no gaps, and cover
exactly `[0, S-1]`. -/
theorem chunk_ranges_partition (S C : Nat) (hS : 0 < S) (hC : 0 < C) :
    downloadChunkRanges S C 0 = parallelChunks S C ∧
    chunkCount S C = S ⌈/⌉ C ∧
    S ≤ chunkCount S C * C ∧ chunkCount S C * C < S + C ∧
    (parallelChunks S C).length = chunkCount S C ∧
    (∀ b, b < S ↔ ∃ i, i < chunkCount S C ∧
        (chunkRange S C i).1 ≤ b ∧ b ≤ (chunkRange S C i).2) ∧
    (∀ i j b, i < chunkCount S C → j < chunkCount S C →
        (chunkRange S C i).1 ≤ b → b ≤ (chunkRange S C i).2 →
        (chunkRange S C j).1 ≤ b → b ≤ (chunkRange S C j).2 → i = j) := by
  refine ⟨downloadChunkRanges_zero_eq S C hC, rfl, le_chunkCount_mul S C hC,
    chunkCount_mul_lt S C hC, by simp [parallelChunks], ?_, ?_⟩
  · intro b
    constructor
    · intro hb
      refine ⟨b / C, ?_, ?_, ?_⟩
      · exact (Nat.div_lt_iff_lt_mul hC).mpr (lt_of_lt_of_le hb (le_chunkCount_mul S C hC))
      · exact Nat.div_mul_le_self b C
      · have hdm := Nat.div_add_mod b C
        have hmod := Nat.mod_lt b hC
        have hcm : b / C * C = C * (b / C) := Nat.mul_comm _ _
        simp only [chunkRange]
        refine le_min ?_ (by omega)
        omega
    · rintro ⟨i, hi, h1, h2⟩
      simp only [chunkRange] at h2
      have h3 := le_trans h2 (Nat.min_le_right _ _)
      omega
  · intro i j b hi hj hi1 hi2 hj1 hj2
    simp only [chunkRange] at hi1 hi2 hj1 hj2
    have hi3 := le_trans hi2 (Nat.min_le_left _ _)
    have hj3 := le_trans hj2 (Nat.min_le_left _ _)
    have hieq : b / C = i :=
      Nat.div_eq_of_lt_le hi1 (by rw [Nat.succ_mul]; omega)
    have hjeq : b / C = j :=
      Nat.div_eq_of_lt_le hj1 (by rw [Nat.succ_mul]; omega)
    omega

/-- Witness for C2 at `S = 10`, `C = 4`. -/
theorem chunk_ranges_partition_witness :
    (0 : Nat) < 10 ∧ (0 : Nat) < 4 ∧ (10 : Nat) ≤ chunkCount 10 4 * 4 :=
  ⟨by decide, by decide, (chunk_ranges_partition 10 4 (by decide) (by decide)).2.2.1⟩

/-- Claim C7 as stated is false: when `--force-multipart` (resp.
`--force-chunked`) and `--force-single` are both set, `force_single`
wins (it is applied last), so `force_multipart` does not select the
chunked path "regardless"; at `file_size = 0`, `chunk_size = 5 MiB` and
both flags true the decision is single-shot. -/
theorem transfer_mode_counterexample :
    decideUploadMultipart 0 5242880 true true = false ∧
    decideDownloadChunked 0 5242880 true true = false :=
  ⟨rfl, rfl⟩

/-- Claim C7, amended: the transfer-mode decision is a pure function of
size, threshold and the two force flags; with no flags it is chunked
exactly when `size > chunk_size` (so single-shot when `size ≤
chunk_size`); `force_single` selects single-shot regardless of size and
takes precedence over `force_multipart`/`force_chunked`; when
`force_single` is not set, `force_multipart`/`force_chunked` selects
chunked regardless of size. -/
theorem transfer_mode_decision (fileSize chunkSize : Nat) :
    decideUploadMultipart fileSize chunkSize false false = decide (chunkSize < fileSize) ∧
    (fileSize ≤ chunkSize → decideUploadMultipart fileSize chunkSize false false = false) ∧
    (∀ fm : Bool, decideUploadMultipart fileSize chunkSize fm true = false) ∧
    decideUploadMultipart fileSize chunkSize true false = true ∧
    decideDownloadChunked fileSize chunkSize false false = decide (chunkSize < fileSize) ∧
    (fileSize ≤ chunkSize → decideDownloadChunked fileSize chunkSize false false = false) ∧
    (∀ fc : Bool, decideDownloadChunked fileSize chunkSize fc true = false) ∧
    decideDownloadChunked fileSize chunkSize true false = true := by
  refine ⟨rfl, ?_, ?_, rfl, rfl, ?_, ?_, rfl⟩
  · intro h
    simp [decideUploadMultipart]
    omega
  · intro fm; cases fm <;> rfl
  · intro h
    simp [decideDownloadChunked]
    omega
  · intro fc; cases fc <;> rfl

/-- Witness for C7 (amended) at `size = 3`, `chunk = 7`. -/
theorem transfer_mode_decision_witness :
    (3 : Nat) ≤ 7 ∧ decideUploadMultipart 3 7 false false = false :=
  ⟨by decide, (transfer_mode_decision 3 7).2.1 (by decide)⟩

/-- Claim C8 as stated is false: the chunk count for a zero-byte object
is `(0 + C - 1) // C = 0`, not `≥ 1`; there is no single chunk of size
zero. -/
theorem chunk_count_counterexample : ¬ (1 ≤ chunkCount 0 5242880) := by
  decide

/-- Claim C8, amended: for `S > 0` the chunk count is at least 1, but a
zero-byte object yields zero chunks; the parallel download of a 0-byte
object truncates the destination file to zero bytes, sends no `Range`
header (the request list is empty), and succeeds with the empty file. -/
theorem zero_byte_chunking (C : Nat) (hC : 0 < C) :
    (∀ S, 0 < S → 1 ≤ chunkCount S C) ∧
    chunkCount 0 C = 0 ∧
    parallelRangeHeaders 0 C = [] ∧
    truncatedFile 0 = [] ∧
    (∀ resp, downloadFileParallel resp 0 C [] = ([], true)) := by
  have hzero : chunkCount 0 C = 0 := by
    unfold chunkCount
    exact Nat.div_eq_of_lt (by omega)
  refine ⟨?_, hzero, ?_, rfl, ?_⟩
  · intro S hS
    have h2 := le_chunkCount_mul S C hC
    by_contra hle
    push_neg at hle
    interval_cases h : chunkCount S C
    simp at h2
    omega
  · simp [parallelRangeHeaders, parallelChunks, hzero]
  · intro resp
    rfl

/-- Witness for C8 (amended) at `C = 4`, `S = 9`. -/
theorem zero_byte_chunking_witness :
    chunkCount 0 4 = 0 ∧ 1 ≤ chunkCount 9 4 :=
  ⟨(zero_byte_chunking 4 (by decide)).2.1,
    (zero_byte_chunking 4 (by decide)).1 9 (by decide)⟩

/-! ### Canonical query string lemmas (claim C5) -/

lemma dictSet_of_not_mem (d : PyDict) (k v : String) (h : ∀ p ∈ d, p.1 ≠ k) :
    dictSet d k v = d ++ [(k, v)] := by
  unfold dictSet
  have hany : d.any (fun p => p.1 == k) = false := by
    rw [List.any_eq_false]
    intro p hp
    simpa using h p hp
  rw [hany]
  simp

lemma foldl_dictSet_of_nodup :
    ∀ (ps : List (String × String)) (acc : PyDict),
      ((acc ++ ps).map Prod.fst).Nodup →
      ps.foldl (fun d p => dictSet d p.1 p.2) acc = acc ++ ps := by
  intro ps
  induction ps with
  | nil => intro acc _; simp
  | cons p rest ih =>
    intro acc h
    simp only [List.foldl_cons]
    have hnotin : ∀ q ∈ acc, q.1 ≠ p.1 := by
      intro q hq hcontra
      rw [List.map_append, List.nodup_append] at h
      exact h.2.2 (List.mem_map_of_mem Prod.fst hq) (by simp [hcontra])
    rw [dictSet_of_not_mem acc p.1 p.2 hnotin]
    have h2 := ih (acc ++ [p]) (by simpa using h)
    simpa using h2

lemma buildQueryDict_eq (toks : List String)
    (h : ((toks.map parseParam).map Prod.fst).Nodup) :
    buildQueryDict toks = toks.map parseParam := by
  unfold buildQueryDict
  rw [← List.foldl_map parseParam (fun d p => dictSet d p.1 p.2) toks []]
  exact foldl_dictSet_of_nodup (toks.map parseParam) [] (by simpa using h)

lemma lookup_eq_of_perm (k : String) :
    ∀ {d1 d2 : PyDict}, d1.Perm d2 → (d1.map Prod.fst).Nodup →
      d1.lookup k = d2.lookup k := by
  intro d1 d2 hperm
  induction hperm with
  | nil => intro _; rfl
  | cons x h ih =>
    intro hnd
    obtain ⟨a, b⟩ := x
    rw [List.lookup_cons, List.lookup_cons]
    cases hk : (k == a)
    · simp only []
      exact ih (by simp [List.nodup_cons] at hnd; exact hnd.2)
    · rfl
  | swap x y l =>
    intro hnd
    obtain ⟨a, b⟩ := x
    obtain ⟨c, e⟩ := y
    have hne : c ≠ a := by
      simp [List.nodup_cons] at hnd
      intro hca
      exact hnd.1.1 (hca ▸ rfl)
    rw [List.lookup_cons, List.lookup_cons, List.lookup_cons, List.lookup_cons]
    cases hk1 : (k == a) <;> cases hk2 : (k == c) <;> simp only []
    exact absurd (by rw [← eq_of_beq hk1, ← eq_of_beq hk2]) hne.symm
  | trans h1 h2 ih1 ih2 =>
    intro hnd
    have hnd2 := ((h1.map Prod.fst).nodup_iff).mp hnd
    exact (ih1 hnd).trans (ih2 hnd2)

lemma pySorted_perm_eq {l1 l2 : List String} (h : l1.Perm l2) :
    pySorted l1 = pySorted l2 := by
  apply List.eq_of_perm_of_sorted
    ((List.perm_insertionSort _ l1).trans (h.trans (List.perm_insertionSort _ l2).symm))
    (List.sorted_insertionSort _ l1)
    (List.sorted_insertionSort _ l2)

lemma canonicalFromTokens_perm (toks1 toks2 : List String)
    (hp : toks1.Perm toks2)
    (hnd : ((toks1.map parseParam).map Prod.fst).Nodup) :
    canonicalFromTokens toks1 = canonicalFromTokens toks2 := by
  have hp' : (toks1.map parseParam).Perm (toks2.map parseParam) := hp.map parseParam
  have hnd2 : ((toks2.map parseParam).map Prod.fst).Nodup :=
    ((hp'.map Prod.fst).nodup_iff).mp hnd
  unfold canonicalFromTokens canonicalOfDict
  rw [buildQueryDict_eq toks1 hnd, buildQueryDict_eq toks2 hnd2]
  have hkeys : pySorted (dictKeys (toks1.map parseParam)) =
      pySorted (dictKeys (toks2.map parseParam)) :=
    pySorted_perm_eq (hp'.map Prod.fst)
  unfold dictKeys
  unfold dictKeys at hkeys
  rw [← hkeys]
  apply congrArg (String.intercalate "&")
  apply List.map_congr_left
  intro k _
  unfold dictGet
  rw [lookup_eq_of_perm k hp' hnd]

/-- Claim C5: the canonical query string splits the query on `&`, treats
a token without `=` as a key with empty value, percent-encodes each key
and each value separately and joins the `key=value` pairs with `&`
sorted by key in byte-wise ascending order; the output is independent of
the order of the input parameters (keys being distinct), and in
particular `b=2&a=1` and `a=1&b=2` both canonicalize to `a=1&b=2`. -/
theorem canonical_query_string_sorted (toks1 toks2 : List String)
    (hp : toks1.Perm toks2)
    (hnd : ((toks1.map parseParam).map Prod.fst).Nodup) :
    canonicalFromTokens toks1 = canonicalFromTokens toks2 ∧
    (∀ q : String, q ≠ "" → canonicalQueryString q = canonicalFromTokens (pySplit q '&')) ∧
    canonicalQueryString "b=2&a=1" = "a=1&b=2" ∧
    canonicalQueryString "a=1&b=2" = "a=1&b=2" := by
  refine ⟨canonicalFromTokens_perm toks1 toks2 hp hnd, ?_, by rfl, by rfl⟩
  intro q hq
  unfold canonicalQueryString
  rw [if_neg hq]

/-- Witness for C5: the two orders of `{b: "2", a: "1"}`. -/
theorem canonical_query_string_sorted_witness :
    canonicalFromTokens ["b=2", "a=1"] = canonicalFromTokens ["a=1", "b=2"] :=
  (canonical_query_string_sorted ["b=2", "a=1"] ["a=1", "b=2"]
    (List.Perm.swap "a=1" "b=2" []) (by decide)).1

/-! ### Canonical request layout lemmas (claim C6) -/

lemma foldl_str_append :
    ∀ (t : List String) (s : String),
      t.foldl (· ++ ·) s = s ++ t.foldl (· ++ ·) "" := by
  intro t
  induction t with
  | nil => intro s; simp
  | cons a t ih =>
    intro s
    simp only [List.foldl_cons]
    rw [ih (s ++ a), ih ("" ++ a), String.empty_append, String.append_assoc]

lemma string_join_cons (a : String) (t : List String) :
    String.join (a :: t) = a ++ String.join t := by
  show List.foldl (· ++ ·) "" (a :: t) = a ++ List.foldl (· ++ ·) "" t
  simp only [List.foldl_cons]
  rw [foldl_str_append t ("" ++ a), String.empty_append]

lemma foldl_append_str (f : String → String) :
    ∀ (l : List String) (s : String),
      l.foldl (fun acc k => acc ++ f k) s = s ++ String.join (l.map f) := by
  intro l
  induction l with
  | nil => intro s; simp [String.join]
  | cons a t ih =>
    intro s
    simp only [List.foldl_cons, List.map_cons]
    rw [ih (s ++ f a), string_join_cons, String.append_assoc]

lemma canonicalHeadersStr_eq (d : PyDict) :
    canonicalHeadersStr d =
      String.join ((pySorted (dictKeys d)).map (fun k => k ++ ":" ++ dictGet d k ++ "\n")) := by
  unfold canonicalHeadersStr
  rw [foldl_append_str (fun k => k ++ ":" ++ dictGet d k ++ "\n") (pySorted (dictKeys d)) ""]
  rw [String.empty_append]

lemma dictSet_keys (d : PyDict) (k v : String) :
    dictKeys (dictSet d k v) =
      if d.any (fun p => p.1 == k) then dictKeys d else dictKeys d ++ [k] := by
  unfold dictSet dictKeys
  split
  · rw [List.map_map]
    apply List.map_congr_left
    intro p _
    by_cases h : p.1 = k <;> simp [h]
  · simp

lemma dictSet_keys_nodup (d : PyDict) (k v : String) (h : (dictKeys d).Nodup) :
    (dictKeys (dictSet d k v)).Nodup := by
  rw [dictSet_keys]
  split
  · exact h
  · rename_i hany
    rw [List.nodup_append]
    refine ⟨h, List.nodup_singleton k, ?_⟩
    intro a ha hb
    rw [List.mem_singleton] at hb
    unfold dictKeys at ha
    rcases List.mem_map.mp ha with ⟨p, hp, hpa⟩
    have hk : d.any (fun p => p.1 == k) = true :=
      List.any_eq_true.mpr ⟨p, hp, by simp [hpa, hb]⟩
    exact absurd hk hany

lemma foldl_dictSet_keys_nodup (g : String × String → String) (vg : String × String → String) :
    ∀ (hs : List (String × String)) (acc : PyDict),
      (dictKeys acc).Nodup →
      (dictKeys (hs.foldl (fun d p => dictSet d (g p) (vg p)) acc)).Nodup := by
  intro hs
  induction hs with
  | nil => intro acc h; exact h
  | cons q rest ih =>
    intro acc h
    simp only [List.foldl_cons]
    exact ih (dictSet acc (g q) (vg q)) (dictSet_keys_nodup acc (g q) (vg q) h)

lemma normalizeHeaders_keys_nodup (hs : List (String × String)) :
    (dictKeys (normalizeHeaders hs)).Nodup := by
  unfold normalizeHeaders
  exact foldl_dictSet_keys_nodup (fun p => pyLower p.1) (fun p => p.2) hs [] (by simp [dictKeys])

lemma foldl_dictSet_keys_sub (g : String × String → String) (vg : String × String → String) :
    ∀ (hs : List (String × String)) (acc : PyDict),
      ∀ k ∈ dictKeys (hs.foldl (fun d p => dictSet d (g p) (vg p)) acc),
        k ∈ dictKeys acc ∨ ∃ p ∈ hs, k = g p := by
  intro hs
  induction hs with
  | nil => intro acc k hk; left; exact hk
  | cons q rest ih =>
    intro acc k hk
    simp only [List.foldl_cons] at hk
    rcases ih (dictSet acc (g q) (vg q)) k hk with h | h
    · rw [dictSet_keys] at h
      by_cases hany : acc.any (fun p => p.1 == g q) = true
      · rw [if_pos hany] at h
        left; exact h
      · rw [if_neg hany] at h
        rcases List.mem_append.mp h with h2 | h2
        · left; exact h2
        · right
          refine ⟨q, List.mem_cons_self q rest, ?_⟩
          simpa using h2
    · rcases h with ⟨p, hp, hkp⟩
      right
      exact ⟨p, List.mem_cons_of_mem q hp, hkp⟩

lemma normalizeHeaders_keys_lower (hs : List (String × String)) :
    ∀ k ∈ dictKeys (normalizeHeaders hs), ∃ p ∈ hs, k = pyLower p.1 := by
  intro k hk
  rcases foldl_dictSet_keys_sub (fun p => pyLower p.1) (fun p => p.2) hs [] k hk with h | h
  · simp [dictKeys] at h
  · exact h

/-- Claim C6: the canonical request is the method, the path (empty path
normalized to `/`), the canonical query string, the canonical headers
block (lower-cased names with case-insensitive duplicates collapsed to
one entry, sorted by name, each `name:value` pair terminated by a
newline), the sorted `;`-joined signed-headers list, and the payload
hash (hex SHA-256 of the body bytes, of the empty string when the body
is absent), joined by newlines exactly in that order. -/
theorem canonical_request_layout (sha256x : List Nat → List Nat)
    (method path query : String) (headers : List (String × String)) (data : PyBody) :
    canonicalRequest sha256x method path query headers data =
      method ++ "\n" ++ (if path = "" then "/" else path) ++ "\n" ++
        canonicalQueryString query ++ "\n" ++
        String.join ((pySorted (dictKeys (normalizeHeaders headers))).map
          (fun k => k ++ ":" ++ dictGet (normalizeHeaders headers) k ++ "\n")) ++ "\n" ++
        String.intercalate ";" (pySorted (dictKeys (normalizeHeaders headers))) ++ "\n" ++
        payloadHash sha256x data ∧
    (dictKeys (normalizeHeaders headers)).Nodup ∧
    (∀ k ∈ dictKeys (normalizeHeaders headers), ∃ p ∈ headers, k = pyLower p.1) ∧
    List.Pairwise (fun a b => pyStrLe a b = true)
      (pySorted (dictKeys (normalizeHeaders headers))) ∧
    payloadHash sha256x PyBody.noBody = bytesToHex (sha256x (utf8 "")) ∧
    (∀ bs, payloadHash sha256x (PyBody.bytes bs) = bytesToHex (sha256x bs)) := by
  refine ⟨?_, normalizeHeaders_keys_nodup headers, normalizeHeaders_keys_lower headers,
    List.sorted_insertionSort _ _, rfl, fun bs => rfl⟩
  simp only [canonicalRequest, signedHeadersStr, canonicalHeadersStr_eq]

/-- Witness for C6: two case-insensitive duplicate header names collapse
to a single normalized entry. -/
theorem canonical_request_layout_witness :
    (dictKeys (normalizeHeaders [("Host", "h"), ("HOST", "h2")])).Nodup :=
  (canonical_request_layout (fun _ => []) "GET" "" ""
    [("Host", "h"), ("HOST", "h2")] PyBody.noBody).2.1

/-- Claim C1: for every region, service, secret key and `x-amz-date`
header value, the signature is the hex HMAC-SHA256 — under the key
obtained by exactly four chained HMAC-SHA256 digests seeded with the
UTF-8 bytes of `"AWS4" + secret_key` and folding in the first 8
characters of the date, the region, the service and the literal
`aws4_request`, in that order — of the string-to-sign (algorithm tag,
date-time, credential scope, hex SHA-256 of the canonical request,
joined by newlines).  The whole authorization value is this closed-form
expression of the inputs; the embedding is a pure function, so the value
is deterministic for fixed inputs. -/
theorem sign_v4_key_derivation (hmacx : List Nat → List Nat → List Nat)
    (sha256x : List Nat → List Nat)
    (method path query : String) (headers : List (String × String))
    (data : PyBody) (region service accessKey secretKey amzDate : String)
    (h : dictGet (normalizeHeaders headers) "x-amz-date" = amzDate) :
    signRequestV4 hmacx sha256x method path query headers data region service accessKey secretKey =
      "AWS4-HMAC-SHA256" ++ " " ++ "Credential=" ++ accessKey ++ "/" ++
        (amzDate.take 8 ++ "/" ++ region ++ "/" ++ service ++ "/aws4_request") ++ ", " ++
        "SignedHeaders=" ++ signedHeadersStr (normalizeHeaders headers) ++ ", " ++
        "Signature=" ++ bytesToHex (hmacx
          (hmacx (hmacx (hmacx (hmacx (utf8 ("AWS4" ++ secretKey)) (utf8 (amzDate.take 8)))
            (utf8 region)) (utf8 service)) (utf8 "aws4_request"))
          (utf8 ("AWS4-HMAC-SHA256" ++ "\n" ++ amzDate ++ "\n" ++
            (amzDate.take 8 ++ "/" ++ region ++ "/" ++ service ++ "/aws4_request") ++ "\n" ++
            bytesToHex (sha256x (utf8
              (canonicalRequest sha256x method path query headers data)))))) := by
  simp only [signRequestV4, stringToSign, signingKey, credentialScope, h]

/-- Witness for C1 with degenerate digest functions and a concrete
header map carrying the `x-amz-date` value. -/
theorem sign_v4_key_derivation_witness :
    signRequestV4 (fun _ _ => [1]) (fun _ => [2]) "GET" "" ""
      [("X-Amz-Date", "20240101T000000Z")] PyBody.noBody
      "us-east-1" "s3" "AKID" "SK" =
      "AWS4-HMAC-SHA256 Credential=AKID/20240101/us-east-1/s3/aws4_request, SignedHeaders=x-amz-date, Signature=01" := by
  rw [sign_v4_key_derivation (fun _ _ => [1]) (fun _ => [2]) "GET" "" ""
    [("X-Amz-Date", "20240101T000000Z")] PyBody.noBody
    "us-east-1" "s3" "AKID" "SK" "20240101T000000Z" rfl]
  rfl

/-! ### Multipart orchestration lemmas (claims C3, C4, C10) -/

lemma sortParts_map_fst (l : List (Nat × String)) :
    (sortPartsByNumber l).map Prod.fst = List.insertionSort (· ≤ ·) (l.map Prod.fst) := by
  unfold sortPartsByNumber
  exact List.map_insertionSort (r := fun a b : Nat × String => a.1 ≤ b.1)
    (s := fun a b : Nat => a ≤ b)
    (Prod.fst : Nat × String → Nat) l (fun a _ b _ => Iff.rfl)

lemma sortParts_range (l : List (Nat × String)) (n : Nat)
    (hp : (l.map Prod.fst).Perm (List.range' 1 n)) :
    (sortPartsByNumber l).map Prod.fst = List.range' 1 n := by
  rw [sortParts_map_fst]
  apply List.eq_of_perm_of_sorted (r := (· ≤ ·))
  · exact (List.perm_insertionSort _ _).trans hp
  · exact List.sorted_insertionSort _ _
  · exact (List.pairwise_lt_range' 1 n).imp (fun h => Nat.le_of_lt h)

lemma gatherParts_success (pstatus : Nat → Nat) (etag : Nat → String) :
    ∀ (order : List Nat) (acc : List (Nat × String)),
      (∀ p ∈ order, pstatus p = 200) →
      gatherParts pstatus etag order acc =
        ([], some (acc ++ order.map (fun p => (p, etag p)))) := by
  intro order
  induction order with
  | nil => intro acc _; simp [gatherParts]
  | cons p rest ih =>
    intro acc h
    have hp : pstatus p = 200 := h p (List.mem_cons_self p rest)
    simp only [gatherParts, hp, if_pos]
    rw [ih (acc ++ [(p, etag p)]) (fun q hq => h q (List.mem_cons_of_mem p hq))]
    simp

lemma gatherParts_failure (pstatus : Nat → Nat) (etag : Nat → String) :
    ∀ (order : List Nat) (acc : List (Nat × String)),
      (∃ p ∈ order, pstatus p ≠ 200) →
      gatherParts pstatus etag order acc = ([S3Req.abort], none) := by
  intro order
  induction order with
  | nil => intro acc h; simp at h
  | cons p rest ih =>
    intro acc h
    by_cases hp : pstatus p = 200
    · simp only [gatherParts, hp, if_pos]
      apply ih
      rcases h with ⟨q, hq, hqs⟩
      rcases List.mem_cons.mp hq with rfl | hq2
      · exact absurd hp hqs
      · exact ⟨q, hq2, hqs⟩
    · simp [gatherParts, hp]

lemma uploadPartsLoop_success (pstatus : Nat → Nat) (etag : Nat → String) :
    ∀ (chunks : List (List Nat)) (pn : Nat) (acc : List (Nat × String)),
      (∀ i, i < chunks.length → pstatus (pn + i) = 200) →
      uploadPartsLoop pstatus etag chunks pn acc =
        (List.zipWith (fun p data => S3Req.uploadPart p data.length)
            (List.range' pn chunks.length) chunks,
          some (acc ++ (List.range' pn chunks.length).map (fun p => (p, etag p)))) := by
  intro chunks
  induction chunks with
  | nil => intro pn acc _; simp [uploadPartsLoop]
  | cons data rest ih =>
    intro pn acc h
    have h0 : pstatus pn = 200 := by
      have := h 0 (by simp)
      simpa using this
    simp only [uploadPartsLoop, h0, if_pos]
    rw [ih (pn + 1) (acc ++ [(pn, etag pn)]) ?_]
    · simp [List.range'_succ, List.append_assoc]
    · intro i hi
      have := h (i + 1) (by simpa using Nat.succ_lt_succ hi)
      rw [show pn + 1 + i = pn + (i + 1) by omega]
      exact this

lemma uploadPartsLoop_failure (pstatus : Nat → Nat) (etag : Nat → String) :
    ∀ (chunks : List (List Nat)) (pn : Nat) (acc : List (Nat × String)),
      (∃ i, i < chunks.length ∧ pstatus (pn + i) ≠ 200) →
      (uploadPartsLoop pstatus etag chunks pn acc).2 = none ∧
      (uploadPartsLoop pstatus etag chunks pn acc).1.countP S3Req.isAbort = 1 ∧
      (uploadPartsLoop pstatus etag chunks pn acc).1.countP S3Req.isComplete = 0 := by
  intro chunks
  induction chunks with
  | nil => intro pn acc h; rcases h with ⟨i, hi, _⟩; simp at hi
  | cons data rest ih =>
    intro pn acc h
    by_cases h0 : pstatus pn = 200
    · have hrest : ∃ i, i < rest.length ∧ pstatus (pn + 1 + i) ≠ 200 := by
        rcases h with ⟨i, hi, hne⟩
        cases i with
        | zero => exact absurd (by simpa using h0) hne
        | succ j =>
          refine ⟨j, by simpa using Nat.lt_of_succ_lt_succ hi, ?_⟩
          rw [show pn + 1 + j = pn + (j + 1) by omega]
          exact hne
      have hr := ih (pn + 1) (acc ++ [(pn, etag pn)]) hrest
      simp only [uploadPartsLoop, h0, if_pos]
      refine ⟨hr.1, ?_, ?_⟩
      · rw [List.countP_cons]
        simp [S3Req.isAbort, hr.2.1]
      · rw [List.countP_cons]
        simp [S3Req.isComplete, hr.2.2]
    · simp [uploadPartsLoop, h0, List.countP_cons, S3Req.isAbort, S3Req.isComplete]

/-- Claim C3: when every part succeeds, the parallel upload's completion
document serializes the collected parts sorted by part number: whatever
the completion order (any permutation of `1..n`), the `<Part>` sequence
has part numbers exactly `1, 2, ..., n`, which is strictly ascending;
the sequential upload collects parts in ascending order in the first
place and serializes that list. -/
theorem completion_parts_sorted (pstatus : Nat → Nat) (etag : Nat → String)
    (cst n : Nat) (order : List Nat) (chunks : List (List Nat))
    (hord : order.Perm (List.range' 1 n))
    (hok : ∀ p ∈ order, pstatus p = 200)
    (hseq : ∀ i, i < chunks.length → pstatus (1 + i) = 200) :
    uploadFileParallel 200 pstatus etag cst order =
      (S3Req.initiate ::
          [S3Req.complete (completionXml
            (sortPartsByNumber (order.map (fun p => (p, etag p)))))],
        if cst = 200 then .ok else .completeFailed) ∧
    (sortPartsByNumber (order.map (fun p => (p, etag p)))).map Prod.fst =
      List.range' 1 n ∧
    List.Pairwise (· < ·)
      ((sortPartsByNumber (order.map (fun p => (p, etag p)))).map Prod.fst) ∧
    uploadFileMultipart 200 pstatus etag cst chunks =
      (S3Req.initiate ::
          (List.zipWith (fun p data => S3Req.uploadPart p data.length)
            (List.range' 1 chunks.length) chunks) ++
          [S3Req.complete (completionXml
            ((List.range' 1 chunks.length).map (fun p => (p, etag p))))],
        if cst = 200 then .ok else .completeFailed) ∧
    List.Pairwise (· < ·)
      (((List.range' 1 chunks.length).map (fun p => (p, etag p))).map Prod.fst) := by
  have hfst : (order.map (fun p => (p, etag p))).map Prod.fst = order := by
    rw [List.map_map]
    exact List.map_id order
  have hrange : (sortPartsByNumber (order.map (fun p => (p, etag p)))).map Prod.fst =
      List.range' 1 n :=
    sortParts_range _ n (by rw [hfst]; exact hord)
  refine ⟨?_, hrange, ?_, ?_, ?_⟩
  · unfold uploadFileParallel
    rw [if_neg (by decide)]
    rw [gatherParts_success pstatus etag order [] hok]
    rfl
  · rw [hrange]
    exact List.pairwise_lt_range' 1 n
  · unfold uploadFileMultipart
    rw [if_neg (by decide)]
    rw [uploadPartsLoop_success pstatus etag chunks 1 [] hseq]
    rfl
  · have hfst2 : ((List.range' 1 chunks.length).map (fun p => (p, etag p))).map Prod.fst =
        List.range' 1 chunks.length := by
      rw [List.map_map]
      exact List.map_id _
    rw [hfst2]
    exact List.pairwise_lt_range' 1 chunks.length

/-- Witness for C3 at `n = 2` with completion order `[2, 1]`. -/
theorem completion_parts_sorted_witness :
    (sortPartsByNumber ([2, 1].map (fun p => (p, "e")))).map Prod.fst =
      List.range' 1 2 :=
  (completion_parts_sorted (fun _ => 200) (fun _ => "e") 200 2 [2, 1] []
    (by decide) (fun _ _ => rfl) (fun _ _ => rfl)).2.1

/-- Claim C4: if some part of a multipart upload (sequential or
parallel) comes back with a non-2xx status, the orchestrator issues
exactly one abort, zero completion calls, and reports the upload
aborted. -/
theorem multipart_failure_aborts (pstatus : Nat → Nat) (etag : Nat → String)
    (cst : Nat) (chunks : List (List Nat)) (order : List Nat)
    (hseq : ∃ i, i < chunks.length ∧
      ¬(200 ≤ pstatus (1 + i) ∧ pstatus (1 + i) < 300))
    (hpar : ∃ p ∈ order, ¬(200 ≤ pstatus p ∧ pstatus p < 300)) :
    (uploadFileMultipart 200 pstatus etag cst chunks).1.countP S3Req.isAbort = 1 ∧
    (uploadFileMultipart 200 pstatus etag cst chunks).1.countP S3Req.isComplete = 0 ∧
    (uploadFileMultipart 200 pstatus etag cst chunks).2 = .aborted ∧
    (uploadFileParallel 200 pstatus etag cst order).1 = [S3Req.initiate, S3Req.abort] ∧
    (uploadFileParallel 200 pstatus etag cst order).1.countP S3Req.isAbort = 1 ∧
    (uploadFileParallel 200 pstatus etag cst order).1.countP S3Req.isComplete = 0 ∧
    (uploadFileParallel 200 pstatus etag cst order).2 = .aborted := by
  have hseq' : ∃ i, i < chunks.length ∧ pstatus (1 + i) ≠ 200 := by
    rcases hseq with ⟨i, hi, hne⟩
    exact ⟨i, hi, by omega⟩
  have hpar' : ∃ p ∈ order, pstatus p ≠ 200 := by
    rcases hpar with ⟨p, hp, hne⟩
    exact ⟨p, hp, by omega⟩
  have hloop := uploadPartsLoop_failure pstatus etag chunks 1 [] hseq'
  have hgather := gatherParts_failure pstatus etag order [] hpar'
  rcases hLoopEq : uploadPartsLoop pstatus etag chunks 1 [] with ⟨tr, res⟩
  rw [hLoopEq] at hloop
  have hres : res = none := hloop.1
  subst hres
  have hSeqAll : uploadFileMultipart 200 pstatus etag cst chunks =
      (S3Req.initiate :: tr, .aborted) := by
    unfold uploadFileMultipart
    rw [if_neg (by simp), hLoopEq]
  have hParAll : uploadFileParallel 200 pstatus etag cst order =
      (S3Req.initiate :: [S3Req.abort], .aborted) := by
    unfold uploadFileParallel
    rw [if_neg (by simp), hgather]
  rw [hSeqAll, hParAll]
  refine ⟨?_, ?_, rfl, rfl, by simp [S3Req.isAbort], by simp [S3Req.isComplete], rfl⟩
  · rw [List.countP_cons]
    simp [S3Req.isAbort, hloop.2.1]
  · rw [List.countP_cons]
    simp [S3Req.isComplete, hloop.2.2]

/-- Witness for C4: one-chunk upload whose only part returns 404. -/
theorem multipart_failure_aborts_witness :
    (uploadFileMultipart 200 (fun _ => 404) (fun _ => "e") 200 [[0]]).2 =
      UploadOutcome.aborted ∧
    (uploadFileParallel 200 (fun _ => 404) (fun _ => "e") 200 [1]).2 =
      UploadOutcome.aborted := by
  have h := multipart_failure_aborts (fun _ => 404) (fun _ => "e") 200 [[0]] [1]
    ⟨0, by decide, by decide⟩ ⟨1, by decide, by decide⟩
  exact ⟨h.2.2.1, h.2.2.2.2.2.2⟩

/-- Claim C10: a zero-byte file pushed through the sequential multipart
path reads zero chunks, uploads zero parts, issues no abort, and submits
the empty completion document
`<CompleteMultipartUpload></CompleteMultipartUpload>`. -/
theorem zero_byte_sequential_multipart (pstatus : Nat → Nat)
    (etag : Nat → String) (cst C : Nat) :
    fileChunks [] C = [] ∧
    uploadFileMultipart 200 pstatus etag cst (fileChunks [] C) =
      ([S3Req.initiate,
        S3Req.complete "<CompleteMultipartUpload></CompleteMultipartUpload>"],
        if cst = 200 then .ok else .completeFailed) := by
  have hchunks : fileChunks [] C = [] := by
    rw [fileChunks]
    simp
  refine ⟨hchunks, ?_⟩
  rw [hchunks]
  unfold uploadFileMultipart
  rw [if_neg (by simp)]
  rfl

/-! ### Download error-handling lemmas (claim C9) -/

lemma mul_lt_of_lt_chunkCount (S C i : Nat) (hC : 0 < C) (h : i < chunkCount S C) :
    i * C < S := by
  by_contra hge
  push_neg at hge
  exact absurd (chunkCount_le S C i hC hge) (by omega)

lemma gatherChunks_failure (resp : Nat × Nat → Nat × List Nat) (S C : Nat) :
    ∀ (order : List Nat) (file : List Nat),
      (∃ i ∈ order,
        ¬((resp (chunkRange S C i)).1 = 200 ∨ (resp (chunkRange S C i)).1 = 206)) →
      (gatherChunks resp S C order file).2 = false := by
  intro order
  induction order with
  | nil => intro file h; simp at h
  | cons i rest ih =>
    intro file h
    by_cases hi : (resp (chunkRange S C i)).1 = 200 ∨ (resp (chunkRange S C i)).1 = 206
    · simp only [gatherChunks]
      rw [if_pos hi]
      apply ih
      rcases h with ⟨q, hq, hqs⟩
      rcases List.mem_cons.mp hq with rfl | hq2
      · exact absurd hi hqs
      · exact ⟨q, hq2, hqs⟩
    · simp only [gatherChunks]
      rw [if_neg hi]

lemma downloadChunkedLoop_at_bad (resp : Nat × Nat → Nat × List Nat) (S C : Nat)
    (hC : 0 < C) (j : Nat) (hj : j < chunkCount S C)
    (hbad : ¬((resp (chunkRange S C j)).1 = 200 ∨ (resp (chunkRange S C j)).1 = 206)) :
    ∀ file, downloadChunkedLoop resp S C (j * C) file = (file, false) := by
  intro file
  have hjS : j * C < S := mul_lt_of_lt_chunkCount S C j hC hj
  rw [downloadChunkedLoop, dif_pos ⟨hjS, hC⟩]
  simp only [chunkRange] at hbad
  rw [if_neg hbad]

lemma downloadChunkedLoop_stops (resp : Nat × Nat → Nat × List Nat) (S C : Nat)
    (hC : 0 < C) (j : Nat) (hj : j < chunkCount S C)
    (hbad : ¬((resp (chunkRange S C j)).1 = 200 ∨ (resp (chunkRange S C j)).1 = 206)) :
    ∀ k i, j - i ≤ k → i ≤ j →
      (∀ m, i ≤ m → m < j →
        ((resp (chunkRange S C m)).1 = 200 ∨ (resp (chunkRange S C m)).1 = 206)) →
      ∀ file, downloadChunkedLoop resp S C (i * C) file =
        (file ++ ((List.range' i (j - i)).map (fun m => (resp (chunkRange S C m)).2)).flatten,
          false) := by
  intro k
  induction k with
  | zero =>
    intro i hk hij _ file
    have hij' : i = j := by omega
    subst hij'
    rw [downloadChunkedLoop_at_bad resp S C hC i hj hbad file]
    simp [Nat.sub_self]
  | succ k ih =>
    intro i hk hij hgood file
    by_cases hij' : i = j
    · subst hij'
      rw [downloadChunkedLoop_at_bad resp S C hC i hj hbad file]
      simp [Nat.sub_self]
    · have hlt : i < j := by omega
      have hiS : i * C < S := mul_lt_of_lt_chunkCount S C i hC (by omega)
      have hgi := hgood i (by omega) hlt
      simp only [chunkRange] at hgi
      rw [downloadChunkedLoop, dif_pos ⟨hiS, hC⟩]
      by_cases hmin : i * C + C - 1 ≤ S - 1
      · have hmineq : min (i * C + C - 1) (S - 1) = i * C + C - 1 :=
          Nat.min_eq_left hmin
        have hnext : i * C + C - 1 + 1 = (i + 1) * C := by
          rw [Nat.succ_mul]; omega
        have hrec := ih (i + 1) (by omega) (by omega)
          (fun m hm1 hm2 => hgood m (by omega) hm2)
          (file ++ (resp (i * C, i * C + C - 1)).2)
        simp only [hmineq]
        rw [hmineq] at hgi
        rw [if_pos hgi, hnext, hrec]
        have hji : j - i = (j - (i + 1)) + 1 := by omega
        rw [hji, List.range'_succ]
        simp [chunkRange, hmineq, List.append_assoc]
      · exfalso
        have h2 : chunkCount S C ≤ i + 1 :=
          chunkCount_le S C (i + 1) hC (by rw [Nat.succ_mul]; omega)
        omega

/-- Claim C9: when range-fetch `j` of a chunked download answers with a
status outside `{200, 206}` (earlier chunks having succeeded), the
download stops with failure and the destination file holds exactly the
bytes of the chunks written before the failure — the partial file is
returned, never deleted; the parallel download likewise reports failure
whenever a fetched chunk's status is outside `{200, 206}`. -/
theorem download_failure_keeps_partial (resp : Nat × Nat → Nat × List Nat)
    (S C j : Nat) (hC : 0 < C) (hj : j < chunkCount S C)
    (hbad : ¬((resp (chunkRange S C j)).1 = 200 ∨ (resp (chunkRange S C j)).1 = 206))
    (hgood : ∀ m, m < j →
      ((resp (chunkRange S C m)).1 = 200 ∨ (resp (chunkRange S C m)).1 = 206)) :
    downloadFileChunked resp S C =
      (((List.range j).map (fun m => (resp (chunkRange S C m)).2)).flatten, false) ∧
    (∀ order file, j ∈ order → (gatherChunks resp S C order file).2 = false) ∧
    (∀ order, j ∈ order → (downloadFileParallel resp S C order).2 = false) := by
  refine ⟨?_, ?_, ?_⟩
  · unfold downloadFileChunked
    have h := downloadChunkedLoop_stops resp S C hC j hj hbad j 0 (by omega) (by omega)
      (fun m _ hm => hgood m hm) []
    rw [Nat.zero_mul] at h
    simpa [List.range_eq_range'] using h
  · intro order file horder
    exact gatherChunks_failure resp S C order file ⟨j, horder, hbad⟩
  · intro order horder
    unfold downloadFileParallel
    exact gatherChunks_failure resp S C order _ ⟨j, horder, hbad⟩

/-- Witness for C9: 5 bytes in 2-byte chunks, second range answering
404; the partial file holds the first chunk's bytes. -/
theorem download_failure_keeps_partial_witness :
    downloadFileChunked (fun r => if r = (2, 3) then (404, []) else (206, [7, 7])) 5 2 =
      ([7, 7], false) := by
  have h := download_failure_keeps_partial
    (fun r => if r = (2, 3) then (404, []) else (206, [7, 7])) 5 2 1
    (by decide) (by decide) (by decide)
    (fun m hm => by
      have hm0 : m = 0 := by omega
      subst hm0
      decide)
  exact h.1.trans (by rfl)

end S3Cli
